import Mathlib

/-!
Verification of the chunk engine of the `hub` repository
(`hub/core/chunk_engine`): the chunk generator, the tiered write-through
cache, the sample writer (`write.py`) and the index metadata.

Byte buffers are modelled as `List Nat` (one entry per byte; none of the
verified properties depend on the 0..255 range).  Storage providers are
modelled as insertion-ordered association lists, matching Python `dict`
semantics (iteration in insertion order, assignment to an existing key
keeps its position).

Functions present in `hub/core/chunk_engine/write.py` are translated
directly from that file.  Functions of the engine that the repository
snapshot only references (`generate_chunks`, `normalize_and_batchify_shape`,
`array_to_bytes`, `read_sample`, `MemoryProvider`) are modelled from the
specification; each such definition carries a doc comment saying so.
-/

namespace ChunkEngine

abbrev Bytes := List Nat

/-- Storage keys.  `write.py` derives chunk keys as
`os.path.join(key, "c%i" % index)` and the index-map key as
`os.path.join(key, "index_map")`.  The decimal rendering of the index makes
this path scheme injective, so the two derived key forms are modelled as
constructors of an inductive key type. -/
inductive Key where
  | chunkKey (tensor : String) (i : Nat)
  | indexMapKey (tensor : String)
deriving DecidableEq, Repr

/-- One entry of a key's index map, as built in `chunk_and_write_array`:
`{"start_chunk": ..., "end_chunk": ..., "dtype": ..., "shape": ...}`. -/
structure IndexMapEntry where
  start_chunk : Nat
  end_chunk : Nat
  dtype : String
  shape : List Nat
deriving DecidableEq, Repr

/-- Values held by a storage provider: either raw chunk bytes or the
pickled index map.  `pickle.dumps` is injective on the index-map lists the
engine produces, so the serialized blob is modelled by the list itself. -/
inductive Value where
  | chunk (b : Bytes)
  | indexMap (entries : List IndexMapEntry)
deriving DecidableEq, Repr

/-- Size in bytes of a stored value, used for cache capacity accounting.
Only chunk values ever reach a cache tier in the engine. -/
def Value.size : Value → Nat
  | Value.chunk b => b.length
  | Value.indexMap es => es.length

/-- Python-dict lookup on an association list (first matching key). -/
def getPairs : List (Key × Value) → Key → Option Value
  | [], _ => none
  | (k', v') :: rest, k => if k' = k then some v' else getPairs rest k

/-- Python-dict assignment on an association list: replace the value at an
existing key in place, otherwise append a new pair. -/
def setPairs : List (Key × Value) → Key → Value → List (Key × Value)
  | [], k, v => [(k, v)]
  | (k', v') :: rest, k, v =>
    if k' = k then (k, v) :: rest else (k', v') :: setPairs rest k v

/-- Modelled from the spec (the `MemoryProvider` implementation is absent
from the snapshot): a storage provider is a key-to-bytes mapping with
capacity introspection; `capacity = none` is the unbounded durable
backend. -/
structure Provider where
  data : List (Key × Value)
  capacity : Option Nat
deriving DecidableEq, Repr

def Provider.get (p : Provider) (k : Key) : Option Value :=
  getPairs p.data k

def Provider.set (p : Provider) (k : Key) (v : Value) : Provider :=
  { p with data := setPairs p.data k v }

/-- Modelled from the spec: `used_space` of a cache tier is the total size
of the values it holds. -/
def Provider.usedSpace (p : Provider) : Nat :=
  (p.data.map (fun kv => kv.2.size)).sum

/-- Modelled from the spec: `has_space(n)` holds for a bounded tier iff
`used_space + n <= total_capacity`; the durable backend is unbounded. -/
def Provider.hasSpace (p : Provider) (n : Nat) : Bool :=
  match p.capacity with
  | none => true
  | some cap => decide (p.usedSpace + n ≤ cap)

/-!  ## Chunk generator

Modelled from the spec (`generate_chunks` lives in
`hub/core/chunk_engine/generator.py`, which is absent from the snapshot;
its behaviour is fixed by spec section 4.2 and by
`tests/test_generate_chunks.py`).
-/

/-- Split a byte buffer into consecutive slices of length `c`, final slice
possibly shorter.  Structural recursion on a fuel argument (instantiated
with the buffer length) so that concrete applications reduce. -/
def chunkifyGo : Nat → Bytes → Nat → List Bytes
  | 0, _, _ => []
  | _ + 1, [], _ => []
  | fuel + 1, x :: xs, c =>
    (x :: List.take (c - 1) xs) :: chunkifyGo fuel (List.drop (c - 1) xs) c

def chunkify (b : Bytes) (c : Nat) : List Bytes :=
  chunkifyGo b.length b c

/-- Modelled from the spec: `generate_chunks(bytes, chunk_size,
last_chunk_num_bytes)`.  Empty input yields nothing.  If
`last_chunk_num_bytes` is given and below `chunk_size`, the first slice has
`min (chunk_size - last_chunk_num_bytes) (len bytes)` bytes (it fills the
previous incomplete chunk); the rest of the input is cut into
`chunk_size`-byte slices with a shorter final slice. -/
def generate_chunks (b : Bytes) (chunkSize : Nat) (lastChunkNumBytes : Option Nat) : List Bytes :=
  if b.isEmpty then []
  else
    match lastChunkNumBytes with
    | some l =>
      if l < chunkSize then
        let fill := min (chunkSize - l) b.length
        b.take fill :: chunkify (b.drop fill) chunkSize
      else chunkify b chunkSize
    | none => chunkify b chunkSize

/-!  ## Cache chain and writer, translated from `write.py` -/

inductive EngErr where
  | notImplemented
  | cachingFailed
  | unboundLocal
deriving DecidableEq, Repr

/-- `write_to_storage(key, b, storage): storage[key] = b` -/
def write_to_storage (key : Key) (v : Value) (storage : Provider) : Provider :=
  storage.set key v

/-- `write_to_cache(key, b, cache_chain)`: scan the tiers in order and
store the bytes in the first tier with space; return success and the
updated chain. -/
def write_to_cache (key : Key) (b : Bytes) : List Provider → Bool × List Provider
  | [] => (false, [])
  | cache :: rest =>
    if cache.hasSpace b.length then
      (true, cache.set key (Value.chunk b) :: rest)
    else
      let r := write_to_cache key b rest
      (r.1, cache :: r.2)

/-- `flush_cache(cache_chain, storage)`: for each tier in order, copy every
`(key, chunk)` pair to `storage` in iteration order, then delete every
copied key from the tier.  Returns the updated chain and storage. -/
def flush_cache : List Provider → Provider → List Provider × Provider
  | [], storage => ([], storage)
  | cache :: rest, storage =>
    let storage' := cache.data.foldl (fun st kv => st.set kv.1 kv.2) storage
    let r := flush_cache rest storage'
    ({ cache with data := [] } :: r.1, r.2)

/-- `write_bytes_with_caching(key, b, cache_chain, storage)`: empty chain
writes straight to `storage`; otherwise try the cache, on failure flush the
whole chain to `storage` and retry once, and raise
`"Caching failed even after flushing."` if the retry also fails.  The error
value carries the mutated chain and storage, since the Python exception
propagates after the flush has mutated them. -/
def write_bytes_with_caching (key : Key) (b : Bytes) (chain : List Provider)
    (storage : Provider) : Except (EngErr × List Provider × Provider) (List Provider × Provider) :=
  if chain.length ≤ 0 then
    Except.ok (chain, write_to_storage key (Value.chunk b) storage)
  else
    let r1 := write_to_cache key b chain
    if r1.1 then Except.ok (r1.2, storage)
    else
      let f := flush_cache r1.2 storage
      let r2 := write_to_cache key b f.1
      if r2.1 then Except.ok (r2.2, f.2)
      else Except.error (EngErr.cachingFailed, f.1, f.2)

/-- Engine state threaded through a write call: the cache chain and the
durable storage, both mutated in place by the Python code. -/
structure EngState where
  chain : List Provider
  storage : Provider
deriving DecidableEq, Repr

/-- The chunk loop of `chunk_and_write_bytes`: for each generated chunk,
derive the chunk key, apply the compressor and write through the cache. -/
def writeChunksLoop (key : String) (compressor : Bytes → Bytes) :
    List Bytes → Nat → EngState → Except (EngErr × EngState) EngState
  | [], _, st => Except.ok st
  | ch :: rest, idx, st =>
    match write_bytes_with_caching (Key.chunkKey key idx) (compressor ch) st.chain st.storage with
    | Except.ok (chain', storage') => writeChunksLoop key compressor rest (idx + 1) ⟨chain', storage'⟩
    | Except.error (e, chain', storage') => Except.error (e, ⟨chain', storage'⟩)

/-- `chunk_and_write_bytes(b, key, compressor, chunk_size, storage,
cache_chain)`: run the generator, write every compressed chunk through the
cache, flush, and return `(start_chunk, end_chunk) = (0, last loop index)`.
When the generator yields nothing the loop variable `local_chunk_index` is
never bound and the line `end_chunk = local_chunk_index` raises an
unbound-local error — after the flush has already run. -/
def chunk_and_write_bytes (b : Bytes) (key : String) (compressor : Bytes → Bytes)
    (chunkSize : Nat) (st : EngState) : Except (EngErr × EngState) ((Nat × Nat) × EngState) :=
  let chunks := generate_chunks b chunkSize none
  match writeChunksLoop key compressor chunks 0 st with
  | Except.error e => Except.error e
  | Except.ok st1 =>
    let f := flush_cache st1.chain st1.storage
    let st2 : EngState := ⟨f.1, f.2⟩
    if chunks.isEmpty then Except.error (EngErr.unboundLocal, st2)
    else Except.ok ((0, chunks.length - 1), st2)

/-- The sample array: dtype tag, shape, and the row-major flattened
element sequence. -/
structure NdArray where
  dtype : String
  shape : List Nat
  data : List Nat
deriving DecidableEq, Repr

/-- Modelled from the spec (`array_to_bytes` lives in
`hub/core/chunk_engine/util.py`, absent from the snapshot): serialize the
array to a flat byte buffer in row-major order.  `NdArray.data` already is
that row-major sequence; the per-element byte width is abstracted to one
unit per element, which no verified property depends on. -/
def array_to_bytes (a : NdArray) : Bytes :=
  a.data

/-- `chunk_and_write_array(array, key, compressor, chunk_size, storage,
cache_chain, batched)`: `raise NotImplemented` on `batched`; otherwise
serialize, chunk-and-write, then build a fresh `index_map = []`, append the
single new entry `{start_chunk, end_chunk, dtype, shape}` and store it at
`os.path.join(key, "index_map")`. -/
def chunk_and_write_array (array : NdArray) (key : String) (compressor : Bytes → Bytes)
    (chunkSize : Nat) (st : EngState) (batched : Bool) : Except (EngErr × EngState) EngState :=
  if batched then Except.error (EngErr.notImplemented, st)
  else
    let b := array_to_bytes array
    match chunk_and_write_bytes b key compressor chunkSize st with
    | Except.error e => Except.error e
    | Except.ok (rng, st1) =>
      let entry : IndexMapEntry := ⟨rng.1, rng.2, array.dtype, array.shape⟩
      let storage' := write_to_storage (Key.indexMapKey key) (Value.indexMap [entry]) st1.storage
      Except.ok ⟨st1.chain, storage'⟩

/-!  ## The chunk-reassembly harness of `tests/test_generate_chunks.py`

`run_test` iterates the generator over a batch of byte buffers; each
yielded slice either extends the previous chunk (when that chunk is still
below `chunk_size`) or starts a new chunk, and `last_chunk_num_bytes` is
set to the length of the slice just yielded.
-/

/-- One merge step of `run_test`: append the yielded slice as a new chunk
when there is no previous chunk or the previous chunk is full, otherwise
extend the previous chunk. -/
def mergeChunk (chunkSize : Nat) (acc : List Bytes) (ch : Bytes) : List Bytes :=
  match acc.getLast? with
  | none => acc ++ [ch]
  | some last =>
    if chunkSize ≤ last.length then acc ++ [ch]
    else acc.dropLast ++ [last ++ ch]

/-- Reassembly state of `run_test`: the accumulated chunks and the
`last_chunk_num_bytes` value to thread into the next generator call. -/
structure RunState where
  actual : List Bytes
  lcnb : Option Nat
deriving DecidableEq, Repr

/-- Process one byte buffer exactly as `run_test` does: run the generator
with the threaded `last_chunk_num_bytes`, merge every yielded slice, and
record the length of each yielded slice as the new `last_chunk_num_bytes`. -/
def processBuffer (chunkSize : Nat) (st : RunState) (b : Bytes) : RunState :=
  (generate_chunks b chunkSize st.lcnb).foldl
    (fun s ch => ⟨mergeChunk chunkSize s.actual ch, some ch.length⟩) st

/-- Process a batch of byte buffers as `run_test` does, starting with no
chunks and `last_chunk_num_bytes = None`. -/
def processBuffers (chunkSize : Nat) (bs : List Bytes) : RunState :=
  bs.foldl (processBuffer chunkSize) ⟨[], none⟩

/-- Variant threading: thread `last_chunk_num_bytes` forward as the length
of the last accumulated (merged) chunk instead of the last yielded slice. -/
def processBuffersMerged (chunkSize : Nat) (bs : List Bytes) : List Bytes :=
  bs.foldl
    (fun acc b =>
      (generate_chunks b chunkSize ((acc.getLast?).map List.length)).foldl
        (mergeChunk chunkSize) acc)
    []

/-!  ## Shape normalizer

Modelled from the spec (section 4.1; `normalize_and_batchify_shape` lives
in `hub/core/chunk_engine/util.py`, absent from the snapshot; its
behaviour is fixed by the expected-shape table of `tests/test_utils.py`).
-/

/-- Remove every trailing dimension of size 1 from a shape. -/
def removeTrailingOnes : List Nat → List Nat
  | [] => []
  | x :: xs =>
    match removeTrailingOnes xs with
    | [] => if x = 1 then [] else [x]
    | y :: ys => x :: y :: ys

/-- Modelled from the spec: `normalize_and_batchify_shape(array, batched)`.
When `batched` is false a leading batch dimension of size 1 is prepended;
trailing dimensions of size 1 are then removed and the shape is padded
with trailing 1s back up to the minimum rank 2 (so an all-1s shape becomes
`(1, 1)`).  The flat element data is untouched: this is a reshape. -/
def normalize_and_batchify_shape (a : NdArray) (batched : Bool) : NdArray :=
  let s0 := if batched then a.shape else 1 :: a.shape
  let s1 := removeTrailingOnes s0
  { a with shape := s1 ++ List.replicate (2 - s1.length) 1 }

/-- Modelled from the spec (section 4.6; `read_sample` is absent from the
snapshot): load the index map, select the entry at `sample_index` (failure
if out of range), fetch and decompress chunks `start_chunk..end_chunk`,
concatenate and reinterpret as an array of the recorded dtype and shape. -/
def read_sample (key : String) (sampleIndex : Nat) (storage : Provider)
    (decompressor : Bytes → Bytes) : Option NdArray :=
  match storage.get (Key.indexMapKey key) with
  | some (Value.indexMap entries) =>
    match entries[sampleIndex]? with
    | some e =>
      match (List.range (e.end_chunk + 1 - e.start_chunk)).mapM (fun j =>
          match storage.get (Key.chunkKey key (e.start_chunk + j)) with
          | some (Value.chunk bs) => some (decompressor bs)
          | _ => none) with
      | some parts => some ⟨e.dtype, e.shape, parts.flatten⟩
      | none => none
    | none => none
  | _ => none

/-!  ## Auxiliary notions used by the statements -/

/-- Well-formed chunk sequence for chunk size `c`: every chunk except
possibly the last has length exactly `c`, and every chunk is nonempty and
no longer than `c`. -/
def ChunksOk (c : Nat) (l : List Bytes) : Prop :=
  (∀ ch ∈ l.dropLast, ch.length = c) ∧ ∀ ch ∈ l, 1 ≤ ch.length ∧ ch.length ≤ c

/-- Last value stored at key `q` in a single tier's association list —
the value a flush of that tier leaves on the backend, since the tier's
pairs are copied in iteration order. -/
def lookupLast : List (Key × Value) → Key → Option Value
  | [], _ => none
  | (k, v) :: rest, q =>
    match lookupLast rest q with
    | some w => some w
    | none => if k = q then some v else none

/-- Value that flushing a whole chain leaves at key `q`: the last
occurrence across the tiers, later tiers overriding earlier ones. -/
def lookupTiers : List Provider → Key → Option Value
  | [], _ => none
  | cache :: rest, q =>
    match lookupTiers rest q with
    | some w => some w
    | none => lookupLast cache.data q

/-- State reached by a `chunk_and_write_bytes` call, whether it returns or
raises: the Python caller's chain and storage are mutated either way. -/
def stateOf (r : Except (EngErr × EngState) ((Nat × Nat) × EngState)) : EngState :=
  match r with
  | Except.ok (_, st) => st
  | Except.error (_, st) => st

/-!  # Theorems -/

theorem chunkifyGo_nil (fuel c : Nat) : chunkifyGo fuel [] c = [] := by
  cases fuel <;> rfl

theorem chunkifyGo_flatten (fuel : Nat) : ∀ (b : Bytes) (c : Nat), b.length ≤ fuel → 1 ≤ c →
    (chunkifyGo fuel b c).flatten = b := by
  induction fuel with
  | zero =>
    intro b c hb _
    have : b = [] := List.eq_nil_of_length_eq_zero (Nat.le_zero.mp hb)
    subst this; rfl
  | succ fuel ih =>
    intro b c hb hc
    cases b with
    | nil => rfl
    | cons x xs =>
      have hlen : (List.drop (c - 1) xs).length ≤ fuel := by
        have := List.length_drop (c - 1) xs
        simp only [List.length_cons] at hb
        omega
      simp only [chunkifyGo, List.flatten_cons, ih _ _ hlen hc, List.cons_append,
        List.take_append_drop]

theorem chunkify_flatten (b : Bytes) (c : Nat) (hc : 1 ≤ c) : (chunkify b c).flatten = b :=
  chunkifyGo_flatten b.length b c le_rfl hc

theorem ChunksOk_nil (c : Nat) : ChunksOk c ([] : List Bytes) :=
  ⟨by simp, by simp⟩

theorem chunkifyGo_ok (fuel : Nat) : ∀ (b : Bytes) (c : Nat), b.length ≤ fuel → 1 ≤ c →
    ChunksOk c (chunkifyGo fuel b c) := by
  induction fuel with
  | zero =>
    intro b c hb _
    have : b = [] := List.eq_nil_of_length_eq_zero (Nat.le_zero.mp hb)
    subst this
    rw [chunkifyGo_nil]
    exact ChunksOk_nil c
  | succ fuel ih =>
    intro b c hb hc
    cases b with
    | nil =>
      rw [chunkifyGo_nil]
      exact ChunksOk_nil c
    | cons x xs =>
      have hlen : (List.drop (c - 1) xs).length ≤ fuel := by
        have := List.length_drop (c - 1) xs
        simp only [List.length_cons] at hb
        omega
      obtain ⟨ihA, ihB⟩ := ih (List.drop (c - 1) xs) c hlen hc
      have hhd : (x :: List.take (c - 1) xs).length ≤ c := by
        have := List.length_take (c - 1) xs
        simp only [List.length_cons]
        omega
      constructor
      · intro ch hch
        simp only [chunkifyGo] at hch
        rcases h : chunkifyGo fuel (List.drop (c - 1) xs) c with _ | ⟨r, rs⟩
        · rw [h] at hch; simp at hch
        · rw [h] at hch
          rw [List.dropLast_cons_of_ne_nil (by simp)] at hch
          rcases List.mem_cons.mp hch with rfl | hch'
          · -- head chunk, full because the tail is nonempty
            have hdrop : List.drop (c - 1) xs ≠ [] := by
              intro hd; rw [hd, chunkifyGo_nil] at h; exact List.noConfusion h
            have : c - 1 < xs.length := by
              by_contra hlt
              exact hdrop (List.drop_eq_nil_of_le (by omega))
            have := List.length_take (c - 1) xs
            simp only [List.length_cons]
            omega
          · exact ihA ch (h ▸ hch')
      · intro ch hch
        simp only [chunkifyGo, List.mem_cons] at hch
        rcases hch with rfl | hch'
        · exact ⟨by simp, hhd⟩
        · exact ihB ch hch'

theorem chunkify_ok (b : Bytes) (c : Nat) (hc : 1 ≤ c) : ChunksOk c (chunkify b c) :=
  chunkifyGo_ok b.length b c le_rfl hc

theorem chunkify_ne_nil (b : Bytes) (c : Nat) (hb : b ≠ []) : chunkify b c ≠ [] := by
  cases b with
  | nil => exact absurd rfl hb
  | cons x xs => simp [chunkify, chunkifyGo]

theorem generate_chunks_nil (c : Nat) (l : Option Nat) : generate_chunks [] c l = [] := rfl

theorem generate_chunks_flatten (b : Bytes) (c : Nat) (l : Option Nat) (hc : 1 ≤ c) :
    (generate_chunks b c l).flatten = b := by
  by_cases hb : b.isEmpty
  · rw [List.isEmpty_iff.mp hb]; rfl
  · cases l with
    | none => simp [generate_chunks, hb, chunkify_flatten _ _ hc]
    | some lv =>
      by_cases hl : lv < c
      · simp [generate_chunks, hb, hl, chunkify_flatten _ _ hc, List.take_append_drop]
      · simp [generate_chunks, hb, hl, chunkify_flatten _ _ hc]

theorem generate_chunks_ne_nil (b : Bytes) (c : Nat) (l : Option Nat) (hb : b ≠ []) :
    generate_chunks b c l ≠ [] := by
  have hne : b.isEmpty = false := by simp [List.isEmpty_iff, hb]
  cases l with
  | none => simpa [generate_chunks, hne] using chunkify_ne_nil b c hb
  | some lv =>
    by_cases hl : lv < c
    · simp [generate_chunks, hne, hl]
    · simpa [generate_chunks, hne, hl] using chunkify_ne_nil b c hb

theorem mergeChunk_flatten (c : Nat) (acc : List Bytes) (ch : Bytes) :
    (mergeChunk c acc ch).flatten = acc.flatten ++ ch := by
  rcases List.eq_nil_or_concat' acc with rfl | ⟨l', a, rfl⟩
  · simp [mergeChunk]
  · rw [mergeChunk, List.getLast?_concat]
    by_cases h : c ≤ a.length
    · simp [h]
    · simp [h, List.dropLast_concat, List.append_assoc]

theorem foldl_merge_flatten (c : Nat) (slices : List Bytes) : ∀ acc : List Bytes,
    (slices.foldl (mergeChunk c) acc).flatten = acc.flatten ++ slices.flatten := by
  induction slices with
  | nil => intro acc; simp
  | cons s rest ih =>
    intro acc
    rw [List.foldl_cons, ih, mergeChunk_flatten]
    simp [List.append_assoc]

theorem processBuffer_actual (c : Nat) (b : Bytes) (st : RunState) :
    (processBuffer c st b).actual =
      (generate_chunks b c st.lcnb).foldl (mergeChunk c) st.actual := by
  rw [processBuffer]
  generalize generate_chunks b c st.lcnb = slices
  induction slices generalizing st with
  | nil => rfl
  | cons s rest ih => rw [List.foldl_cons, List.foldl_cons, ih]

theorem processBuffers_flatten (c : Nat) (hc : 1 ≤ c) (bs : List Bytes) :
    (processBuffers c bs).actual.flatten = bs.flatten := by
  suffices h : ∀ st : RunState,
      ((bs.foldl (processBuffer c) st).actual).flatten = st.actual.flatten ++ bs.flatten by
    simpa using h ⟨[], none⟩
  induction bs with
  | nil => intro st; simp
  | cons b rest ih =>
    intro st
    rw [List.foldl_cons, ih, processBuffer_actual, foldl_merge_flatten,
      generate_chunks_flatten _ _ _ hc]
    simp [List.append_assoc]

theorem foldl_merge_append (c : Nat) (slices : List Bytes) : ∀ acc : List Bytes,
    (acc = [] ∨ ∃ last, acc.getLast? = some last ∧ c ≤ last.length) →
    (∀ ch ∈ slices.dropLast, c ≤ ch.length) →
    slices.foldl (mergeChunk c) acc = acc ++ slices := by
  induction slices with
  | nil => intro acc _ _; simp
  | cons s rest ih =>
    intro acc hacc hsl
    have h1 : mergeChunk c acc s = acc ++ [s] := by
      rcases hacc with rfl | ⟨last, hl, hlen⟩
      · simp [mergeChunk]
      · rw [mergeChunk, hl]
        simp [hlen]
    rw [List.foldl_cons, h1]
    cases rest with
    | nil => simp
    | cons r rs =>
      rw [ih (acc ++ [s]) ?_ ?_]
      · simp
      · exact Or.inr ⟨s, List.getLast?_concat acc, hsl s (by
          rw [List.dropLast_cons_of_ne_nil (by simp)]; exact List.mem_cons_self _ _)⟩
      · intro ch hch
        exact hsl ch (by
          rw [List.dropLast_cons_of_ne_nil (by simp)]; exact List.mem_cons_of_mem _ hch)

theorem ChunksOk_concat (c : Nat) (hc : 1 ≤ c) (acc slices : List Bytes) (hacc : ChunksOk c acc)
    (hlast : acc = [] ∨ ∃ last, acc.getLast? = some last ∧ last.length = c)
    (hsl : ChunksOk c slices) : ChunksOk c (acc ++ slices) := by
  have haccall : ∀ ch ∈ acc, ch.length = c := by
    rcases hlast with rfl | ⟨last, hl, hlen⟩
    · intro ch h; simp at h
    · rcases List.eq_nil_or_concat' acc with rfl | ⟨l', a, rfl⟩
      · intro ch h; simp at h
      · rw [List.getLast?_concat] at hl
        cases hl
        intro ch hch
        rcases List.mem_append.mp hch with hch' | hch'
        · exact hacc.1 ch (by rw [List.dropLast_concat]; exact hch')
        · rw [List.mem_singleton.mp hch']; exact hlen
  rcases List.eq_nil_or_concat' slices with rfl | hne
  · simpa using hacc
  · have hslne : slices ≠ [] := by rcases hne with ⟨l', a, rfl⟩; simp
    constructor
    · intro ch hch
      rw [List.dropLast_append_of_ne_nil _ hslne] at hch
      rcases List.mem_append.mp hch with hch' | hch'
      · exact haccall ch hch'
      · exact hsl.1 ch hch'
    · intro ch hch
      rcases List.mem_append.mp hch with hch' | hch'
      · exact ⟨by have := haccall ch hch'; omega, le_of_eq (haccall ch hch')⟩
      · exact hsl.2 ch hch'

theorem mergedStep_ok (c : Nat) (hc : 1 ≤ c) (acc : List Bytes) (b : Bytes)
    (hacc : ChunksOk c acc) :
    ChunksOk c ((generate_chunks b c ((acc.getLast?).map List.length)).foldl (mergeChunk c) acc) := by
  by_cases hb : b = []
  · subst hb; rw [generate_chunks_nil]; exact hacc
  · have hbe : b.isEmpty = false := by simp [List.isEmpty_iff, hb]
    rcases List.eq_nil_or_concat' acc with rfl | ⟨l', a, rfl⟩
    · -- no previous chunk: the generator output is a plain chunking of `b`
      rw [show (([] : List Bytes).getLast?).map List.length = none from rfl]
      rw [show generate_chunks b c none = chunkify b c by simp [generate_chunks, hbe]]
      rw [foldl_merge_append c _ [] (Or.inl rfl)
        (fun ch hch => le_of_eq ((chunkify_ok b c hc).1 ch hch).symm)]
      simpa using chunkify_ok b c hc
    · rw [List.getLast?_concat, Option.map_some']
      have haL : ∀ ch ∈ l', ch.length = c := by
        intro ch hch
        exact hacc.1 ch (by rw [List.dropLast_concat]; exact hch)
      by_cases hal : a.length < c
      · -- previous chunk incomplete: first slice fills it
        rw [show generate_chunks b c (some a.length)
            = b.take (min (c - a.length) b.length) ::
              chunkify (b.drop (min (c - a.length) b.length)) c by
          simp [generate_chunks, hbe, hal]]
        rw [List.foldl_cons]
        have hmerge : mergeChunk c (l' ++ [a]) (b.take (min (c - a.length) b.length))
            = l' ++ [a ++ b.take (min (c - a.length) b.length)] := by
          rw [mergeChunk, List.getLast?_concat]
          simp [Nat.not_le.mpr hal, List.dropLast_concat]
        rw [hmerge]
        set fill := min (c - a.length) b.length with hfill
        set a' := a ++ b.take fill with ha'
        have ha'len : a'.length = a.length + min fill b.length := by
          simp [ha', List.length_take, Nat.min_comm]
        have hfill_le : fill ≤ c - a.length := Nat.min_le_left _ _
        have hfill_le' : fill ≤ b.length := Nat.min_le_right _ _
        have ha'le : a'.length ≤ c := by
          rw [ha'len]
          have : min fill b.length ≤ fill := Nat.min_le_left _ _
          omega
        have ha'pos : 1 ≤ a'.length := by
          have := (hacc.2 a (by simp)).1
          rw [ha'len]; omega
        by_cases hdrop : b.drop fill = []
        · rw [hdrop, show chunkify [] c = [] from rfl, List.foldl_nil]
          constructor
          · intro ch hch
            rw [List.dropLast_concat] at hch
            exact haL ch hch
          · intro ch hch
            rcases List.mem_append.mp hch with hch' | hch'
            · have := haL ch hch'; omega
            · rw [List.mem_singleton.mp hch']; exact ⟨ha'pos, ha'le⟩
        · -- the fill slice completes the previous chunk to exactly `c`
          have hflt : fill < b.length := by
            by_contra hle
            exact hdrop (List.drop_eq_nil_of_le (by omega))
          have hfill_eq : fill = c - a.length := by
            rw [hfill]; omega
          have ha'c : a'.length = c := by
            rw [ha'len]
            have : min fill b.length = fill := Nat.min_eq_left (le_of_lt hflt)
            omega
          rw [foldl_merge_append c _ (l' ++ [a'])
            (Or.inr ⟨a', List.getLast?_concat l', le_of_eq ha'c.symm⟩)
            (fun ch hch => le_of_eq ((chunkify_ok _ c hc).1 ch hch).symm)]
          refine ChunksOk_concat c hc (l' ++ [a']) _ ?_ ?_ (chunkify_ok _ c hc)
          · constructor
            · intro ch hch
              rw [List.dropLast_concat] at hch
              exact haL ch hch
            · intro ch hch
              rcases List.mem_append.mp hch with hch' | hch'
              · have := haL ch hch'; omega
              · rw [List.mem_singleton.mp hch']; exact ⟨ha'pos, ha'le⟩
          · exact Or.inr ⟨a', List.getLast?_concat l', ha'c⟩
      · -- previous chunk already full: the generator starts a fresh chunk
        rw [show generate_chunks b c (some a.length) = chunkify b c by
          simp [generate_chunks, hbe, hal]]
        have hac : a.length = c := by
          have := (hacc.2 a (by simp)).2
          omega
        rw [foldl_merge_append c _ (l' ++ [a])
          (Or.inr ⟨a, List.getLast?_concat l', le_of_eq hac.symm⟩)
          (fun ch hch => le_of_eq ((chunkify_ok b c hc).1 ch hch).symm)]
        exact ChunksOk_concat c hc _ _ hacc
          (Or.inr ⟨a, List.getLast?_concat l', hac⟩) (chunkify_ok b c hc)

theorem processBuffersMerged_ok (c : Nat) (hc : 1 ≤ c) (bs : List Bytes) :
    ChunksOk c (processBuffersMerged c bs) ∧
    (processBuffersMerged c bs).flatten = bs.flatten := by
  rw [processBuffersMerged]
  suffices h : ∀ acc, ChunksOk c acc →
      ChunksOk c (bs.foldl (fun acc b =>
        (generate_chunks b c ((acc.getLast?).map List.length)).foldl (mergeChunk c) acc) acc) ∧
      (bs.foldl (fun acc b =>
        (generate_chunks b c ((acc.getLast?).map List.length)).foldl (mergeChunk c) acc)
          acc).flatten = acc.flatten ++ bs.flatten by
    simpa using h [] (ChunksOk_nil c)
  induction bs with
  | nil => intro acc hacc; exact ⟨hacc, by simp⟩
  | cons b rest ih =>
    intro acc hacc
    rw [List.foldl_cons]
    obtain ⟨h1, h2⟩ := ih _ (mergedStep_ok c hc acc b hacc)
    refine ⟨h1, ?_⟩
    rw [h2, foldl_merge_flatten, generate_chunks_flatten _ _ _ hc]
    simp [List.append_assoc]

/-- Claim C2, counterexample.  With `chunk_size = 4` and the buffer batch
`[[1], [2], [3,4,5,6,7]]`, threading `last_chunk_num_bytes` as the length
of the most recently yielded slice (exactly as `run_test` does) produces
the merged chunks `[[1,2,3,4,5], [6,7]]`: the concatenation is still the
input, but the non-final chunk has length 5, not `chunk_size`. -/
theorem run_test_threading_cex :
    (processBuffers 4 [[1], [2], [3, 4, 5, 6, 7]]).actual = [[1, 2, 3, 4, 5], [6, 7]] ∧
    ∃ ch ∈ (processBuffers 4 [[1], [2], [3, 4, 5, 6, 7]]).actual.dropLast, ch.length ≠ 4 := by
  decide

/-- Claim C2 (amended).  For every `chunk_size ≥ 1` and every finite batch
of byte buffers: concatenating all slices yielded across successive
generator calls under `run_test`'s threading (the length of the most
recently yielded slice) reconstructs the input exactly, and empty input
with no prior partial chunk yields nothing; moreover, when
`last_chunk_num_bytes` is instead threaded as the length of the last
*merged* chunk, every non-final merged chunk additionally has length
exactly `chunk_size` (by `run_test_threading_cex` this length invariant
does not hold for the last-yielded-slice threading). -/
theorem chunk_reconstruction (c : Nat) (hc : 1 ≤ c) (bs : List Bytes) :
    (processBuffers c bs).actual.flatten = bs.flatten ∧
    generate_chunks [] c none = [] ∧
    (processBuffersMerged c bs).flatten = bs.flatten ∧
    ∀ ch ∈ (processBuffersMerged c bs).dropLast, ch.length = c :=
  ⟨processBuffers_flatten c hc bs, generate_chunks_nil c none,
    (processBuffersMerged_ok c hc bs).2, (processBuffersMerged_ok c hc bs).1.1⟩

/-- Witness for `chunk_reconstruction` at `chunk_size = 4` and the batch
`[[1], [2], [3,4,5,6,7]]`. -/
theorem chunk_reconstruction_witness :
    1 ≤ 4 ∧
    ((processBuffers 4 [[1], [2], [3, 4, 5, 6, 7]]).actual.flatten
        = [[1], [2], [3, 4, 5, 6, 7]].flatten ∧
      generate_chunks [] 4 none = [] ∧
      (processBuffersMerged 4 [[1], [2], [3, 4, 5, 6, 7]]).flatten
        = [[1], [2], [3, 4, 5, 6, 7]].flatten ∧
      ∀ ch ∈ (processBuffersMerged 4 [[1], [2], [3, 4, 5, 6, 7]]).dropLast, ch.length = 4) :=
  ⟨by decide, chunk_reconstruction 4 (by decide) [[1], [2], [3, 4, 5, 6, 7]]⟩

theorem getPairs_setPairs (k : Key) (v : Value) : ∀ (l : List (Key × Value)) (q : Key),
    getPairs (setPairs l k v) q = if k = q then some v else getPairs l q := by
  intro l
  induction l with
  | nil =>
    intro q
    by_cases h : k = q <;> simp [setPairs, getPairs, h]
  | cons kv rest ih =>
    intro q
    obtain ⟨k', v'⟩ := kv
    by_cases h : k' = k
    · subst h
      by_cases hq : k' = q <;> simp [setPairs, getPairs, hq]
    · by_cases hq : k' = q
      · subst hq
        have hkq : ¬ k = k' := fun he => h he.symm
        simp [setPairs, h, getPairs, hkq]
      · by_cases hk : k = q
        · subst hk
          simp [setPairs, h, getPairs, hq, ih]
        · simp [setPairs, h, getPairs, hq, hk, ih]

theorem Provider.get_set (p : Provider) (k : Key) (v : Value) (q : Key) :
    (p.set k v).get q = if k = q then some v else p.get q :=
  getPairs_setPairs k v p.data q

theorem Provider.capacity_set (p : Provider) (k : Key) (v : Value) :
    (p.set k v).capacity = p.capacity := rfl

theorem get_foldl_set (l : List (Key × Value)) : ∀ (st : Provider) (q : Key),
    (l.foldl (fun st kv => st.set kv.1 kv.2) st).get q =
      match lookupLast l q with
      | some w => some w
      | none => st.get q := by
  induction l with
  | nil => intro st q; rfl
  | cons kv rest ih =>
    intro st q
    obtain ⟨k, v⟩ := kv
    rw [List.foldl_cons, ih]
    cases h : lookupLast rest q with
    | some w => simp [lookupLast, h]
    | none =>
      by_cases hk : k = q <;>
        simp [lookupLast, h, hk, Provider.get_set]

theorem flush_cache_fst : ∀ (chain : List Provider) (storage : Provider),
    (flush_cache chain storage).1 = chain.map (fun p => { p with data := [] }) := by
  intro chain
  induction chain with
  | nil => intro storage; rfl
  | cons cche rest ih => intro storage; simp [flush_cache, ih]

theorem flush_cache_get : ∀ (chain : List Provider) (storage : Provider) (q : Key),
    (flush_cache chain storage).2.get q =
      match lookupTiers chain q with
      | some w => some w
      | none => storage.get q := by
  intro chain
  induction chain with
  | nil => intro storage q; rfl
  | cons cche rest ih =>
    intro storage q
    rw [show (flush_cache (cche :: rest) storage).2
        = (flush_cache rest (cche.data.foldl (fun st kv => st.set kv.1 kv.2) storage)).2
      from rfl]
    rw [ih, get_foldl_set]
    cases h1 : lookupTiers rest q with
    | some w => simp [lookupTiers, h1]
    | none =>
      cases h2 : lookupLast cche.data q with
      | some w => simp [lookupTiers, h1, h2]
      | none => simp [lookupTiers, h1, h2]

theorem flush_cache_of_empty : ∀ (chain : List Provider) (storage : Provider),
    (∀ p ∈ chain, p.data = []) → (flush_cache chain storage).2 = storage := by
  intro chain
  induction chain with
  | nil => intro storage _; rfl
  | cons cche rest ih =>
    intro storage h
    rw [show (flush_cache (cche :: rest) storage).2
        = (flush_cache rest (cche.data.foldl (fun st kv => st.set kv.1 kv.2) storage)).2
      from rfl]
    rw [h cche (List.mem_cons_self _ _), List.foldl_nil]
    exact ih storage (fun p hp => h p (List.mem_cons_of_mem _ hp))

/-- Claim C7.  `flush_cache(chain, storage)` empties every tier (each
reports `used_space = 0` afterwards), leaves on the backend at every key
the value copied from the tiers (later tiers and later entries
overwriting, falling back to the backend's previous value for keys held by
no tier), and flushing a chain whose tiers are already empty leaves the
backend unchanged. -/
theorem flush_contract (chain : List Provider) (storage : Provider) :
    (∀ p ∈ (flush_cache chain storage).1, p.data = [] ∧ p.usedSpace = 0) ∧
    (∀ q : Key, (flush_cache chain storage).2.get q =
      match lookupTiers chain q with
      | some w => some w
      | none => storage.get q) ∧
    ((∀ p ∈ chain, p.data = []) → (flush_cache chain storage).2 = storage) := by
  refine ⟨?_, fun q => flush_cache_get chain storage q, flush_cache_of_empty chain storage⟩
  intro p hp
  rw [flush_cache_fst] at hp
  obtain ⟨p', _, rfl⟩ := List.mem_map.mp hp
  exact ⟨rfl, rfl⟩

/-- Witness for `flush_contract`: flushing a chain with one already-empty
tier leaves the backend unchanged, and the tier stays empty. -/
theorem flush_contract_witness :
    (∀ p ∈ [Provider.mk [] (some 4)], p.data = []) ∧
    (flush_cache [Provider.mk [] (some 4)]
        (Provider.mk [(Key.chunkKey "t" 0, Value.chunk [1])] none)).2
      = Provider.mk [(Key.chunkKey "t" 0, Value.chunk [1])] none :=
  ⟨by decide,
    (flush_contract [Provider.mk [] (some 4)]
      (Provider.mk [(Key.chunkKey "t" 0, Value.chunk [1])] none)).2.2 (by decide)⟩

theorem write_to_cache_firstFit (key : Key) (b : Bytes) :
    ∀ (chain : List Provider) (i : Nat) (hi : i < chain.length),
    (chain.get ⟨i, hi⟩).hasSpace b.length = true →
    (∀ j (hj : j < chain.length), j < i → (chain.get ⟨j, hj⟩).hasSpace b.length = false) →
    write_to_cache key b chain =
      (true, chain.set i ((chain.get ⟨i, hi⟩).set key (Value.chunk b))) := by
  intro chain
  induction chain with
  | nil => intro i hi; simp at hi
  | cons cche rest ih =>
    intro i hi hsp hfirst
    cases i with
    | zero =>
      simp only [List.get] at hsp
      simp [write_to_cache, hsp, List.set]
    | succ i' =>
      have hhead : cche.hasSpace b.length = false :=
        hfirst 0 (by simp) (Nat.succ_pos i')
      have hi' : i' < rest.length := by
        simp only [List.length_cons] at hi; omega
      have hsp' : (rest.get ⟨i', hi'⟩).hasSpace b.length = true := hsp
      have hfirst' : ∀ j (hj : j < rest.length), j < i' →
          (rest.get ⟨j, hj⟩).hasSpace b.length = false := by
        intro j hj hji
        exact hfirst (j + 1) (by simp only [List.length_cons]; omega) (by omega)
      simp [write_to_cache, hhead, ih i' hi' hsp' hfirst', List.set]

/-- Claim C6.  Writing through the cache chain: with an empty chain the
bytes go directly to the durable backend; otherwise they are stored in the
first tier whose `has_space(len(bytes))` holds, and that placement leaves
every other tier and the backend unchanged. -/
theorem cache_write_placement :
    (∀ (key : Key) (b : Bytes) (storage : Provider),
      write_bytes_with_caching key b [] storage
        = Except.ok ([], write_to_storage key (Value.chunk b) storage)) ∧
    (∀ (key : Key) (b : Bytes) (chain : List Provider) (storage : Provider)
        (i : Nat) (hi : i < chain.length),
      (chain.get ⟨i, hi⟩).hasSpace b.length = true →
      (∀ j (hj : j < chain.length), j < i → (chain.get ⟨j, hj⟩).hasSpace b.length = false) →
      write_bytes_with_caching key b chain storage =
        Except.ok (chain.set i ((chain.get ⟨i, hi⟩).set key (Value.chunk b)), storage)) := by
  constructor
  · intro key b storage; rfl
  · intro key b chain storage i hi hsp hfirst
    have hne : ¬ chain.length ≤ 0 := by omega
    rw [write_bytes_with_caching, if_neg hne, write_to_cache_firstFit key b chain i hi hsp hfirst]
    simp

/-- Witness for `cache_write_placement`: a two-tier chain where the first
tier is too full; the bytes land in the second tier, the first tier and
the backend untouched. -/
theorem cache_write_placement_witness :
    (([Provider.mk [(Key.chunkKey "t" 9, Value.chunk [7, 7, 7])] (some 3),
       Provider.mk [] (some 4)].get ⟨1, by decide⟩).hasSpace (List.length [1, 2]) = true) ∧
    write_bytes_with_caching (Key.chunkKey "t" 0) [1, 2]
        [Provider.mk [(Key.chunkKey "t" 9, Value.chunk [7, 7, 7])] (some 3),
         Provider.mk [] (some 4)] (Provider.mk [] none) =
      Except.ok ([Provider.mk [(Key.chunkKey "t" 9, Value.chunk [7, 7, 7])] (some 3),
        Provider.mk [(Key.chunkKey "t" 0, Value.chunk [1, 2])] (some 4)],
        Provider.mk [] none) := by
  constructor
  · decide
  · exact cache_write_placement.2 (Key.chunkKey "t" 0) [1, 2]
      [Provider.mk [(Key.chunkKey "t" 9, Value.chunk [7, 7, 7])] (some 3),
       Provider.mk [] (some 4)] (Provider.mk [] none) 1 (by decide) (by decide)
      (by
        intro j hj hji
        have hj0 : j = 0 := by omega
        subst hj0
        exact rfl)

theorem write_to_cache_fail (key : Key) (b : Bytes) : ∀ (chain : List Provider),
    (∀ p ∈ chain, p.hasSpace b.length = false) →
    write_to_cache key b chain = (false, chain) := by
  intro chain
  induction chain with
  | nil => intro _; rfl
  | cons cche rest ih =>
    intro h
    have hhead := h cche (List.mem_cons_self _ _)
    rw [write_to_cache, ih (fun p hp => h p (List.mem_cons_of_mem _ hp))]
    simp [hhead]

theorem lookupLast_eq_none (q : Key) : ∀ (l : List (Key × Value)),
    getPairs l q = none → lookupLast l q = none := by
  intro l
  induction l with
  | nil => intro _; rfl
  | cons kv rest ih =>
    intro h
    obtain ⟨k, v⟩ := kv
    rw [getPairs] at h
    by_cases hk : k = q
    · rw [if_pos hk] at h; exact absurd h (by simp)
    · rw [if_neg hk] at h
      rw [lookupLast, ih h]
      simp [hk]

theorem lookupTiers_eq_none (q : Key) : ∀ (chain : List Provider),
    (∀ p ∈ chain, getPairs p.data q = none) → lookupTiers chain q = none := by
  intro chain
  induction chain with
  | nil => intro _; rfl
  | cons cche rest ih =>
    intro h
    rw [lookupTiers, ih (fun p hp => h p (List.mem_cons_of_mem _ hp)),
      lookupLast_eq_none q cche.data (h cche (List.mem_cons_self _ _))]

/-- Claim C5, counterexample.  One cache tier of capacity 2; the payload
`[1,1,1,1,2,2,2,2]` with chunk size 4 and a compressor shrinking the first
chunk to `[9]`: chunk `t/c0` is cached, chunk `t/c1` (compressed size 4)
fits in no tier even after flushing, so the write raises the fatal caching
error — but the flush has already pushed `t/c0`, a chunk of this very
call, onto the durable backend, where it remains visible. -/
theorem capacity_error_partial_visible_cex :
    chunk_and_write_bytes [1, 1, 1, 1, 2, 2, 2, 2] "t"
        (fun bs => if bs.headD 0 = 1 then [9] else bs) 4
        ⟨[Provider.mk [] (some 2)], Provider.mk [] none⟩
      = Except.error (EngErr.cachingFailed,
          ⟨[Provider.mk [] (some 2)],
           Provider.mk [(Key.chunkKey "t" 0, Value.chunk [9])] none⟩) ∧
    (Provider.mk [(Key.chunkKey "t" 0, Value.chunk [9])] none).get (Key.chunkKey "t" 0)
      = some (Value.chunk [9]) :=
  ⟨rfl, rfl⟩

/-- Claim C5 (amended).  If the chunk payload fits in no cache tier even
after flushing every tier (every tier's total capacity is below the
payload size), the write raises the fatal caching error and the *failing*
chunk is not committed anywhere — its key is absent from the durable
backend (and every tier is left empty by the flush); however, chunks of
the same call that were already cached are pushed to the durable backend
by that flush (see `capacity_error_partial_visible_cex`), so the call is
not atomic. -/
theorem capacity_error_failing_chunk_invisible (key : Key) (b : Bytes)
    (chain : List Provider) (storage : Provider)
    (hne : chain ≠ [])
    (hcap : ∀ p ∈ chain, ∃ cap, p.capacity = some cap ∧ cap < b.length)
    (hks : storage.get key = none)
    (hkc : ∀ p ∈ chain, getPairs p.data key = none) :
    write_bytes_with_caching key b chain storage =
      Except.error (EngErr.cachingFailed,
        (flush_cache chain storage).1, (flush_cache chain storage).2) ∧
    (flush_cache chain storage).2.get key = none ∧
    ∀ p ∈ (flush_cache chain storage).1, p.data = [] := by
  have hfail1 : ∀ p ∈ chain, p.hasSpace b.length = false := by
    intro p hp
    obtain ⟨cap, hc1, hc2⟩ := hcap p hp
    simp only [Provider.hasSpace, hc1, decide_eq_false_iff_not]
    omega
  have h1 := write_to_cache_fail key b chain hfail1
  have hfail2 : ∀ p ∈ (flush_cache chain storage).1, p.hasSpace b.length = false := by
    intro p hp
    rw [flush_cache_fst] at hp
    obtain ⟨p', hp', rfl⟩ := List.mem_map.mp hp
    obtain ⟨cap, hc1, hc2⟩ := hcap p' hp'
    simp only [Provider.hasSpace, hc1, Provider.usedSpace, List.map_nil, List.sum_nil,
      decide_eq_false_iff_not]
    omega
  have h2 := write_to_cache_fail key b (flush_cache chain storage).1 hfail2
  refine ⟨?_, ?_, ?_⟩
  · have hlen : ¬ chain.length ≤ 0 := by
      have := List.length_pos.mpr hne
      omega
    rw [write_bytes_with_caching, if_neg hlen, h1]
    simp only []
    rw [h2]
    simp
  · rw [flush_cache_get, lookupTiers_eq_none key chain hkc, hks]
  · intro p hp
    rw [flush_cache_fst] at hp
    obtain ⟨p', _, rfl⟩ := List.mem_map.mp hp
    rfl

/-- Witness for `capacity_error_failing_chunk_invisible`: one tier of
capacity 2, a 3-byte payload, an empty backend. -/
theorem capacity_error_failing_chunk_invisible_witness :
    ([Provider.mk [] (some 2)] ≠ ([] : List Provider)) ∧
    ((Provider.mk [] none).get (Key.chunkKey "t" 0) = none) ∧
    (write_bytes_with_caching (Key.chunkKey "t" 0) [1, 2, 3]
        [Provider.mk [] (some 2)] (Provider.mk [] none) =
      Except.error (EngErr.cachingFailed,
        (flush_cache [Provider.mk [] (some 2)] (Provider.mk [] none)).1,
        (flush_cache [Provider.mk [] (some 2)] (Provider.mk [] none)).2) ∧
      (flush_cache [Provider.mk [] (some 2)] (Provider.mk [] none)).2.get
          (Key.chunkKey "t" 0) = none ∧
      ∀ p ∈ (flush_cache [Provider.mk [] (some 2)] (Provider.mk [] none)).1, p.data = []) :=
  ⟨by decide, rfl,
    capacity_error_failing_chunk_invisible (Key.chunkKey "t" 0) [1, 2, 3]
      [Provider.mk [] (some 2)] (Provider.mk [] none) (by decide)
      (by
        intro p hp
        rw [List.mem_singleton] at hp
        subst hp
        exact ⟨2, rfl, by decide⟩)
      rfl
      (by
        intro p hp
        rw [List.mem_singleton] at hp
        subst hp
        rfl)⟩

theorem chunkKey_inj (t : String) (a b : Nat) : Key.chunkKey t a = Key.chunkKey t b ↔ a = b := by
  constructor
  · intro h; cases h; rfl
  · intro h; rw [h]

theorem writeChunksLoop_nil_chain (key : String) (comp : Bytes → Bytes) :
    ∀ (chunks : List Bytes) (idx : Nat) (S : Provider),
    ∃ S' : Provider,
      writeChunksLoop key comp chunks idx ⟨[], S⟩ = Except.ok ⟨[], S'⟩ ∧
      (∀ i (hi : i < chunks.length),
        S'.get (Key.chunkKey key (idx + i)) = some (Value.chunk (comp (chunks.get ⟨i, hi⟩)))) ∧
      (∀ q : Key, (∀ i, i < chunks.length → q ≠ Key.chunkKey key (idx + i)) →
        S'.get q = S.get q) := by
  intro chunks
  induction chunks with
  | nil =>
    intro idx S
    exact ⟨S, rfl, fun i hi => absurd hi (by simp), fun q _ => rfl⟩
  | cons ch rest ih =>
    intro idx S
    obtain ⟨S', hok, hget, hpres⟩ := ih (idx + 1) (S.set (Key.chunkKey key idx) (Value.chunk (comp ch)))
    refine ⟨S', ?_, ?_, ?_⟩
    · rw [writeChunksLoop]
      rw [show write_bytes_with_caching (Key.chunkKey key idx) (comp ch) ([] : List Provider) S
          = Except.ok ([], S.set (Key.chunkKey key idx) (Value.chunk (comp ch))) from rfl]
      exact hok
    · intro i hi
      cases i with
      | zero =>
        rw [Nat.add_zero]
        rw [hpres (Key.chunkKey key idx) (by
          intro i' hi' he
          rw [chunkKey_inj] at he
          omega)]
        rw [Provider.get_set, if_pos rfl]
        rfl
      | succ i' =>
        have hi'' : i' < rest.length := by simp only [List.length_cons] at hi; omega
        have := hget i' hi''
        rw [show idx + (i' + 1) = (idx + 1) + i' by omega]
        exact this
    · intro q hq
      rw [hpres q (fun i' hi' => hq (i' + 1) (by simp only [List.length_cons]; omega)
        ∘ (by intro he; rw [show idx + (i' + 1) = (idx + 1) + i' by omega]; exact he))]
      rw [Provider.get_set, if_neg ?_]
      intro he
      exact hq 0 (by simp) (by rw [← he, Nat.add_zero])

/-- Claim C3, counterexample.  `chunk_and_write_bytes` applies the
compressor to *every* generated chunk: writing `[1,2,3,4,5]` with chunk
size 4 and compressor `(7 :: ·)` stores the incomplete final chunk `[5]`
as `[7,5]` — compressed, not raw — contradicting the claim that an
incomplete final chunk is written uncompressed. -/
theorem final_chunk_compressed_cex :
    chunk_and_write_bytes [1, 2, 3, 4, 5] "t" (fun bs => 7 :: bs) 4
        ⟨[], Provider.mk [] none⟩
      = Except.ok ((0, 1),
          ⟨[], Provider.mk [(Key.chunkKey "t" 0, Value.chunk [7, 1, 2, 3, 4]),
                            (Key.chunkKey "t" 1, Value.chunk [7, 5])] none⟩) ∧
    (Provider.mk [(Key.chunkKey "t" 0, Value.chunk [7, 1, 2, 3, 4]),
        (Key.chunkKey "t" 1, Value.chunk [7, 5])] none).get (Key.chunkKey "t" 1)
      = some (Value.chunk ((fun bs => 7 :: bs) [5])) ∧
    Value.chunk ((fun bs => 7 :: bs) [5]) ≠ Value.chunk [5] :=
  ⟨rfl, rfl, by decide⟩

/-- Claim C3 (amended).  During a sample write every chunk — the full ones
*and* an incomplete final one — is passed through the supplied compressor
before being handed to the cache chain / storage: with an empty cache
chain, the value stored at the i-th chunk key is exactly
`compressor(chunk_i)` for every generated chunk. -/
theorem all_chunks_compressed (b : Bytes) (key : String) (comp : Bytes → Bytes)
    (c : Nat) (S : Provider) (hc : 1 ≤ c) (i : Nat)
    (hi : i < (generate_chunks b c none).length) :
    (stateOf (chunk_and_write_bytes b key comp c ⟨[], S⟩)).storage.get (Key.chunkKey key i)
      = some (Value.chunk (comp ((generate_chunks b c none).get ⟨i, hi⟩))) := by
  obtain ⟨S', hok, hget, _⟩ := writeChunksLoop_nil_chain key comp (generate_chunks b c none) 0 S
  have := hget i hi
  rw [Nat.zero_add] at this
  rw [chunk_and_write_bytes, hok]
  by_cases he : (generate_chunks b c none).isEmpty
  · rw [List.isEmpty_iff] at he
    rw [he] at hi
    exact absurd hi (by simp)
  · simp only [he, Bool.false_eq_true, if_neg, stateOf]
    exact this

/-- Witness for `all_chunks_compressed`: the final (incomplete) chunk of
`[1,2,3,4,5]` at chunk size 4 is stored as `compressor([5])`. -/
theorem all_chunks_compressed_witness :
    1 ≤ 4 ∧ 1 < (generate_chunks [1, 2, 3, 4, 5] 4 none).length ∧
    (stateOf (chunk_and_write_bytes [1, 2, 3, 4, 5] "t" (fun bs => 7 :: bs) 4
        ⟨[], Provider.mk [] none⟩)).storage.get (Key.chunkKey "t" 1)
      = some (Value.chunk ((fun bs => 7 :: bs)
          ((generate_chunks [1, 2, 3, 4, 5] 4 none).get ⟨1, by decide⟩))) :=
  ⟨by decide, by decide,
    all_chunks_compressed [1, 2, 3, 4, 5] "t" (fun bs => 7 :: bs) 4
      (Provider.mk [] none) (by decide) 1 (by decide)⟩

/-- Claim C8.  A batched write fails fast: `chunk_and_write_array` with
`batched = True` hits `raise NotImplemented` before any serialization,
chunking or storage access, and the returned state is exactly the input
state — backend, cache chain and index map untouched.  (At the Python
level `raise NotImplemented` surfaces as an immediate exception, modelled
here as the `notImplemented` error.) -/
theorem batched_write_fails_fast (array : NdArray) (key : String) (comp : Bytes → Bytes)
    (c : Nat) (st : EngState) :
    chunk_and_write_array array key comp c st true
      = Except.error (EngErr.notImplemented, st) := rfl

/-- Claim C10.  `chunk_and_write_bytes` is not total on empty payloads:
with `b = []` the generator yields nothing, the loop variable is never
bound and the function fails with the unbound-local error at
`end_chunk = local_chunk_index` (after the final flush has already run);
for every nonempty payload (with an empty cache chain) it returns a chunk
range normally. -/
theorem chunk_and_write_bytes_totality :
    (∀ (key : String) (comp : Bytes → Bytes) (c : Nat) (st : EngState),
      chunk_and_write_bytes [] key comp c st
        = Except.error (EngErr.unboundLocal,
            ⟨(flush_cache st.chain st.storage).1, (flush_cache st.chain st.storage).2⟩)) ∧
    (∀ (b : Bytes) (key : String) (comp : Bytes → Bytes) (c : Nat) (S : Provider),
      b ≠ [] →
      ∃ rng st', chunk_and_write_bytes b key comp c ⟨[], S⟩ = Except.ok (rng, st')) := by
  constructor
  · intro key comp c st; rfl
  · intro b key comp c S hb
    obtain ⟨S', hok, _, _⟩ := writeChunksLoop_nil_chain key comp (generate_chunks b c none) 0 S
    refine ⟨(0, (generate_chunks b c none).length - 1), ⟨[], S'⟩, ?_⟩
    rw [chunk_and_write_bytes, hok]
    have hne : (generate_chunks b c none).isEmpty = false := by
      simp [List.isEmpty_iff, generate_chunks_ne_nil b c none hb]
    simp [hne, flush_cache]

/-- Witness for `chunk_and_write_bytes_totality`: the nonempty payload
`[1,2,3]` writes successfully. -/
theorem chunk_and_write_bytes_totality_witness :
    ([1, 2, 3] ≠ ([] : Bytes)) ∧
    ∃ rng st', chunk_and_write_bytes [1, 2, 3] "t" (fun bs => bs) 2 ⟨[], Provider.mk [] none⟩
      = Except.ok (rng, st') :=
  ⟨by decide,
    chunk_and_write_bytes_totality.2 [1, 2, 3] "t" (fun bs => bs) 2 (Provider.mk [] none)
      (by decide)⟩

/-- Claim C4, failing-input evaluation.  `chunk_and_write_array` builds a
fresh `index_map = []` on every call and rewrites `key/index_map` with a
single-entry list: after two successful writes to `"tensor"` the persisted
index map holds exactly one entry (the second write's), not two — the
first entry is lost, so the index map is overwritten, not appended to. -/
theorem index_map_not_appended :
    (chunk_and_write_array ⟨"uint8", [2], [5, 6]⟩ "tensor" (fun bs => bs) 4
        ⟨[], Provider.mk [] none⟩ false).bind
      (fun st1 => chunk_and_write_array ⟨"uint8", [3], [7, 8, 9]⟩ "tensor"
        (fun bs => bs) 4 st1 false)
      = Except.ok ⟨[], Provider.mk
          [(Key.chunkKey "tensor" 0, Value.chunk [7, 8, 9]),
           (Key.indexMapKey "tensor", Value.indexMap [⟨0, 0, "uint8", [3]⟩])] none⟩ ∧
    (Provider.mk
        [(Key.chunkKey "tensor" 0, Value.chunk [7, 8, 9]),
         (Key.indexMapKey "tensor", Value.indexMap [⟨0, 0, "uint8", [3]⟩])] none).get
      (Key.indexMapKey "tensor") = some (Value.indexMap [⟨0, 0, "uint8", [3]⟩]) ∧
    ([(⟨0, 0, "uint8", [3]⟩ : IndexMapEntry)].length ≠ 2) :=
  ⟨rfl, rfl, by decide⟩

/-- Claim C1, failing-input evaluation.  Because each write overwrites the
index map with a one-entry list, the round trip breaks from the second
write on: after writing `[5,6]` and then `[7,8,9]` under key `"tensor"`,
`read_sample("tensor", 1, backend)` finds the sample index out of range
(the stored index map has a single entry) and fails, while
`read_sample("tensor", 0, backend)` returns the *second* array. -/
theorem read_after_two_writes_fails :
    ((chunk_and_write_array ⟨"uint8", [2], [5, 6]⟩ "tensor" (fun bs => bs) 4
        ⟨[], Provider.mk [] none⟩ false).bind
      (fun st1 => chunk_and_write_array ⟨"uint8", [3], [7, 8, 9]⟩ "tensor"
        (fun bs => bs) 4 st1 false)).map
      (fun st => (read_sample "tensor" 1 st.storage (fun bs => bs),
                  read_sample "tensor" 0 st.storage (fun bs => bs)))
      = Except.ok (none, some ⟨"uint8", [3], [7, 8, 9]⟩) := rfl

theorem removeTrailingOnes_prod : ∀ s : List Nat, (removeTrailingOnes s).prod = s.prod := by
  intro s
  induction s with
  | nil => rfl
  | cons x xs ih =>
    rw [removeTrailingOnes]
    cases h : removeTrailingOnes xs with
    | nil =>
      rw [h] at ih
      by_cases hx : x = 1 <;>
        simp [hx, List.prod_cons, ← ih]
    | cons y ys =>
      rw [h] at ih
      simp [List.prod_cons, ← ih]

theorem removeTrailingOnes_cons (x : Nat) (xs : List Nat) :
    removeTrailingOnes (x :: xs) = [] ∨
    ∃ t, removeTrailingOnes (x :: xs) = x :: t := by
  rw [removeTrailingOnes]
  cases removeTrailingOnes xs with
  | nil =>
    by_cases hx : x = 1
    · exact Or.inl (by simp [hx])
    · exact Or.inr ⟨[], by simp [hx]⟩
  | cons y ys => exact Or.inr ⟨y :: ys, rfl⟩

theorem removeTrailingOnes_getLast : ∀ s : List Nat,
    removeTrailingOnes s = [] ∨ (removeTrailingOnes s).getLast? ≠ some 1 := by
  intro s
  induction s with
  | nil => exact Or.inl rfl
  | cons x xs ih =>
    rw [removeTrailingOnes]
    cases h : removeTrailingOnes xs with
    | nil =>
      by_cases hx : x = 1
      · exact Or.inl (by simp [hx])
      · refine Or.inr ?_
        simp [hx]
    | cons y ys =>
      refine Or.inr ?_
      rw [List.getLast?_cons_cons]
      rcases ih with h' | h'
      · rw [h] at h'; exact absurd h' (by simp)
      · rw [h] at h'; exact h'

theorem removeTrailingOnes_all_ones : ∀ s : List Nat,
    (∀ d ∈ s, d = 1) → removeTrailingOnes s = [] := by
  intro s
  induction s with
  | nil => intro _; rfl
  | cons x xs ih =>
    intro h
    rw [removeTrailingOnes, ih (fun d hd => h d (List.mem_cons_of_mem _ hd))]
    simp [h x (List.mem_cons_self _ _)]

/-- The normalizer reproduces every row of the expected-shape table of
`tests/test_utils.py`. -/
theorem normalize_matches_test_table :
    ((normalize_and_batchify_shape ⟨"f", [1, 100], []⟩ true).shape = [1, 100] ∧
     (normalize_and_batchify_shape ⟨"f", [100, 100], []⟩ true).shape = [100, 100] ∧
     (normalize_and_batchify_shape ⟨"f", [10, 224, 224, 3], []⟩ true).shape = [10, 224, 224, 3] ∧
     (normalize_and_batchify_shape ⟨"f", [10, 3, 224, 224], []⟩ true).shape = [10, 3, 224, 224] ∧
     (normalize_and_batchify_shape ⟨"f", [10, 3, 224, 224, 1], []⟩ true).shape = [10, 3, 224, 224] ∧
     (normalize_and_batchify_shape ⟨"f", [10, 3, 224, 224, 1, 1, 1, 1], []⟩ true).shape
        = [10, 3, 224, 224] ∧
     (normalize_and_batchify_shape ⟨"f", [1, 1, 1, 1, 1, 1, 1], []⟩ true).shape = [1, 1] ∧
     (normalize_and_batchify_shape ⟨"f", [1, 1], []⟩ true).shape = [1, 1]) ∧
    ((normalize_and_batchify_shape ⟨"f", [1], []⟩ false).shape = [1, 1] ∧
     (normalize_and_batchify_shape ⟨"f", [100], []⟩ false).shape = [1, 100] ∧
     (normalize_and_batchify_shape ⟨"f", [100, 100], []⟩ false).shape = [1, 100, 100] ∧
     (normalize_and_batchify_shape ⟨"f", [3, 224, 224, 1, 1, 1, 1], []⟩ false).shape
        = [1, 3, 224, 224] ∧
     (normalize_and_batchify_shape ⟨"f", [10, 3, 224, 224, 1, 1, 1, 1], []⟩ false).shape
        = [1, 10, 3, 224, 224] ∧
     (normalize_and_batchify_shape ⟨"f", [1, 1], []⟩ false).shape = [1, 1] ∧
     (normalize_and_batchify_shape ⟨"f", [1, 1, 1, 1, 1, 1, 1], []⟩ false).shape = [1, 1]) := by
  decide

/-- Claim C9.  `normalize_and_batchify_shape` is a pure reshape: the flat
element data (and dtype) are untouched and the shape keeps the same
element count; the result has rank at least 2, has no trailing dimension
of size 1 whenever its rank exceeds 2 (trailing 1s are removed down to the
minimum rank), carries a leading batch dimension of size 1 whenever
`batched` is false, and an all-1s shape collapses to `(1, 1)`. -/
theorem normalize_shape_spec (a : NdArray) (batched : Bool) :
    (normalize_and_batchify_shape a batched).data = a.data ∧
    (normalize_and_batchify_shape a batched).dtype = a.dtype ∧
    (normalize_and_batchify_shape a batched).shape.prod = a.shape.prod ∧
    2 ≤ (normalize_and_batchify_shape a batched).shape.length ∧
    ((normalize_and_batchify_shape a batched).shape.length = 2 ∨
      (normalize_and_batchify_shape a batched).shape.getLast? ≠ some 1) ∧
    (batched = true ∨ (normalize_and_batchify_shape a batched).shape.head? = some 1) ∧
    ((∃ d ∈ a.shape, d ≠ 1) ∨ (normalize_and_batchify_shape a batched).shape = [1, 1]) := by
  have hshape : (normalize_and_batchify_shape a batched).shape
      = removeTrailingOnes (if batched then a.shape else 1 :: a.shape)
        ++ List.replicate
          (2 - (removeTrailingOnes (if batched then a.shape else 1 :: a.shape)).length) 1 := rfl
  refine ⟨rfl, rfl, ?_, ?_, ?_, ?_, ?_⟩
  · rw [hshape, List.prod_append, List.prod_replicate, one_pow, mul_one,
      removeTrailingOnes_prod]
    cases batched <;> simp
  · rw [hshape, List.length_append, List.length_replicate]
    omega
  · rw [hshape]
    rcases Nat.lt_or_ge (removeTrailingOnes (if batched then a.shape else 1 :: a.shape)).length 3
      with hlen | hlen
    · refine Or.inl ?_
      rw [List.length_append, List.length_replicate]
      omega
    · refine Or.inr ?_
      have hz : 2 - (removeTrailingOnes (if batched then a.shape else 1 :: a.shape)).length = 0 := by
        omega
      rw [hz, List.replicate_zero, List.append_nil]
      rcases removeTrailingOnes_getLast (if batched then a.shape else 1 :: a.shape) with h | h
      · rw [h] at hlen; simp at hlen
      · exact h
  · cases batched with
    | true => exact Or.inl rfl
    | false =>
      refine Or.inr ?_
      have hshape' : (normalize_and_batchify_shape a false).shape
          = removeTrailingOnes (1 :: a.shape)
            ++ List.replicate (2 - (removeTrailingOnes (1 :: a.shape)).length) 1 := rfl
      rw [hshape']
      rcases removeTrailingOnes_cons 1 a.shape with h | ⟨t, h⟩
      · rw [h]; rfl
      · rw [h]; rfl
  · by_cases h : ∃ d ∈ a.shape, d ≠ 1
    · exact Or.inl h
    · refine Or.inr ?_
      push_neg at h
      have hall : ∀ d ∈ (if batched then a.shape else 1 :: a.shape), d = 1 := by
        cases batched with
        | true => simpa using h
        | false =>
          simp only [Bool.false_eq_true, if_neg]
          intro d hd
          rcases List.mem_cons.mp hd with rfl | hd'
          · rfl
          · exact h d hd'
      rw [hshape, removeTrailingOnes_all_ones _ hall]
      rfl

end ChunkEngine
